import Mathlib

/-!
Verification of the crossword CSP solver (`generate.py`, class `CrosswordCreator`).

The solver's own methods (`enforce_node_consistency`, `revise`, `ac3`,
`assignment_complete`, `consistent`, `order_domain_values`,
`select_unassigned_variable`, `backtrack`, `solve`) are embedded from the
source.  The puzzle model (`Variable`, `Crossword` with its overlap and
neighbor relations) is an external collaborator whose code is not part of the
repository; it is modelled from the spec's contract.

Python's mutable state is made explicit:
* `self.domains` becomes a value of type `Domains` threaded through the
  propagation functions (and through `backtrack`, which never writes it);
* the `assignment` dict becomes an association list in insertion order;
* the unbounded `while`/recursion of `ac3` and `backtrack` is run on explicit
  fuel chosen at least as large as the number of iterations the Python loops
  can perform, so that every definition computes by kernel reduction.
-/

/-- Modelled from the spec: a slot direction, "one of two: horizontal,
vertical"  (`Variable.ACROSS` / `Variable.DOWN` in the missing puzzle-model
module). -/
inductive Direction where
  | across
  | down
deriving DecidableEq, Repr

/-- Modelled from the spec: a Slot ("variable" in CSP terms): starting row,
starting column, direction, length; "two slots are equal iff all four
attributes match". -/
structure Variable where
  row : Nat
  col : Nat
  direction : Direction
  length : Nat
deriving DecidableEq, Repr

/-- A candidate word, as its list of characters. -/
abbrev Word := List Char

/-- `w[i]` of the source, totalised with a default character (the source only
indexes in bounds). -/
def charAt (w : Word) (i : Nat) : Char :=
  w.getD i ' '

/-- Modelled from the spec: the Puzzle Model consumed by the core: the finite
set of slots, the vocabulary, and the overlap relation ("for every unordered
pair of distinct slots that share a grid cell, the pair maps to the shared
cell's local index within each slot ...; pairs with no shared cell map to no
overlap").  Grid geometry is used only by output formatting and is omitted. -/
structure Crossword where
  vars : List Variable
  words : List Word
  overlaps : Variable → Variable → Option (Nat × Nat)

/-- Modelled from the spec: the neighbor relation, "for a slot, the set of
other slots with a defined (non-null) overlap". -/
def neighbors (cw : Crossword) (x : Variable) : List Variable :=
  cw.vars.filter (fun v => v != x && (cw.overlaps v x).isSome)

/-- Well-formedness of a puzzle model, from the spec's contract: slots form a
set, the vocabulary is a set of words, no slot overlaps itself, and the
overlap relation is symmetric with the two local indices swapped. -/
structure WF (cw : Crossword) : Prop where
  nodup_vars : cw.vars.Nodup
  nodup_words : cw.words.Nodup
  self_overlap : ∀ v ∈ cw.vars, cw.overlaps v v = none
  symm : ∀ v1 ∈ cw.vars, ∀ v2 ∈ cw.vars,
    cw.overlaps v2 v1 = (cw.overlaps v1 v2).map (fun p => (p.2, p.1))

/-- The Domain Store: `self.domains`, a mapping from each slot to its current
list of candidate words. -/
abbrev Domains := Variable → List Word

/-- `self.domains[x] = l`, leaving other slots unchanged. -/
def updateD (doms : Domains) (x : Variable) (l : List Word) : Domains :=
  fun v => if v = x then l else doms v

/-- `__init__`: each slot's domain starts as a copy of the full vocabulary. -/
def initDomains (cw : Crossword) : Domains :=
  fun _ => cw.words

/-- `enforce_node_consistency`: for every slot of the store, remove every
candidate word whose length differs from the slot's length. -/
def enforce_node_consistency (cw : Crossword) (doms : Domains) : Domains :=
  fun v =>
    if v ∈ cw.vars then (doms v).filter (fun value => value.length == v.length)
    else doms v

/-- The removal loop of `revise`: iterate over a copy of `x`'s domain and
remove from the live store every word with no corresponding value in the
current domain of `y`.  The accumulated flag records whether any removal was
made. -/
def reviseAux (i j : Nat) (x y : Variable) :
    List Word → Domains → Bool → Domains × Bool
  | [], doms, revised => (doms, revised)
  | value_x :: rest, doms, revised =>
    if (doms y).any (fun value_y => charAt value_x i == charAt value_y j) then
      reviseAux i j x y rest doms revised
    else
      reviseAux i j x y rest (updateD doms x ((doms x).erase value_x)) true

/-- `revise(x, y)`: if `x` and `y` overlap at `(i, j)`, remove from `x`'s
domain every word with no corresponding value in `y`'s domain; return the
updated store and whether a revision was made. -/
def revise (cw : Crossword) (x y : Variable) (doms : Domains) : Domains × Bool :=
  match cw.overlaps x y with
  | none => (doms, false)
  | some (i, j) => reviseAux i j x y (doms x) doms false

/-- Modelled from the spec: the default worklist of `ac3` ("by default, from
every overlapping pair in both directions"; the source takes the keys of the
puzzle model's overlap table, which is not part of the repository). -/
def defaultArcs (cw : Crossword) : List (Variable × Variable) :=
  (cw.vars.map (fun x =>
    (cw.vars.filter (fun y => (cw.overlaps x y).isSome)).map (fun y => (x, y)))).flatten

/-- Total number of candidate words over all slots; strictly decreases at
every revision made by `ac3`. -/
def totalSize (cw : Crossword) (doms : Domains) : Nat :=
  (cw.vars.map (fun v => (doms v).length)).sum

/-- An upper bound on the number of iterations of the `ac3` worklist loop
from a given state: every iteration pops one arc, and an iteration that
revises removes at least one word while enqueueing at most one arc per
slot. -/
def ac3Measure (cw : Crossword) (queue : List (Variable × Variable)) (doms : Domains) : Nat :=
  totalSize cw doms * (cw.vars.length + 1) + queue.length

/-- The `while queue` loop of `ac3`, on explicit fuel: pop the front arc
`(x, y)`, revise; on a revision that empties `x`'s domain return failure,
on a revision otherwise enqueue `(z, x)` for every neighbor `z` of `x`
except `y`. -/
def ac3Go (cw : Crossword) : Nat → List (Variable × Variable) → Domains → Domains × Bool
  | 0, _, doms => (doms, true)
  | _ + 1, [], doms => (doms, true)
  | fuel + 1, (x, y) :: rest, doms =>
    let r := revise cw x y doms
    if r.2 then
      if (r.1 x).length = 0 then (r.1, false)
      else
        ac3Go cw fuel
          (rest ++ ((neighbors cw x).filter (fun z => z != y)).map (fun z => (z, x))) r.1
    else ac3Go cw fuel rest r.1

/-- `ac3` with its default arcs, run on fuel sufficient for the loop to
drain its worklist. -/
def ac3 (cw : Crossword) (doms : Domains) : Domains × Bool :=
  ac3Go cw (ac3Measure cw (defaultArcs cw) doms + 1) (defaultArcs cw) doms

/-- An assignment: the `assignment` dict, as its association list of
`(variable, word)` items in insertion order. -/
abbrev Assign := List (Variable × Word)

/-- `var in assignment`: key membership. -/
def hasKey (a : Assign) (v : Variable) : Bool :=
  a.any (fun p => p.1 == v)

/-- `assignment[var] = value` for a key not yet present (the only use in
`backtrack`, whose variable is selected among the unassigned ones): the dict
gains a last item. -/
def insertA (a : Assign) (var : Variable) (value : Word) : Assign :=
  a ++ [(var, value)]

/-- `del assignment[var]`: drop the item with that key. -/
def eraseA (a : Assign) (var : Variable) : Assign :=
  a.eraseP (fun p => p.1 == var)

/-- `assignment_complete`: every crossword variable is a key of the
assignment. -/
def assignment_complete (cw : Crossword) (a : Assign) : Bool :=
  cw.vars.all (fun v => hasKey a v)

/-- `consistent`: the assigned words are pairwise distinct (the set of values
has as many elements as the dict) and every two items whose variables overlap
agree on the overlapping characters. -/
def consistent (cw : Crossword) (a : Assign) : Bool :=
  let values := a.map Prod.snd
  if values.dedup.length != a.length then false
  else
    a.all (fun p1 => a.all (fun p2 =>
      if p1.1 = p2.1 then true
      else
        match cw.overlaps p1.1 p2.1 with
        | none => true
        | some (i, j) => charAt p1.2 i == charAt p2.2 j))

/-- The count computed by `order_domain_values` for one candidate `value` of
`var`: over the unassigned neighbors of `var` with a defined overlap, the
number of the neighbor's domain words not equal to `value`. -/
def ruleOutCount (cw : Crossword) (doms : Domains) (a : Assign) (var : Variable)
    (value : Word) : Nat :=
  (neighbors cw var).foldl (fun count neighbor =>
    if hasKey a neighbor then count
    else
      match cw.overlaps var neighbor with
      | some _ => count + ((doms neighbor).filter (fun val => val != value)).length
      | none => count) 0

/-- `order_domain_values`: pair each word of `var`'s domain with its rule-out
count, stable-sort by the count (Python's `list.sort` is stable), and return
the words. -/
def order_domain_values (cw : Crossword) (doms : Domains) (var : Variable) (a : Assign) :
    List Word :=
  let domain := doms var
  let count_values := domain.map (fun value => (value, ruleOutCount cw doms a var value))
  (count_values.insertionSort (fun p q => p.2 ≤ q.2)).map Prod.fst

/-- `select_unassigned_variable`: stable-sort the unassigned variables by
domain size, collect the ones tied for the minimum, and among ties pick the
first after a stable sort by descending degree.  `none` is returned only
when every variable is assigned (the source is never called in that case). -/
def select_unassigned_variable (cw : Crossword) (doms : Domains) (a : Assign) :
    Option Variable :=
  let unassigned_variables :=
    (cw.vars.filter (fun v => !hasKey a v)).insertionSort
      (fun u v => (doms u).length ≤ (doms v).length)
  match unassigned_variables with
  | [] => none
  | first :: _ =>
    let min_remaining_values := (doms first).length
    let tied_variables :=
      unassigned_variables.filter (fun v => (doms v).length == min_remaining_values)
    if tied_variables.length = 1 then tied_variables.head?
    else
      (tied_variables.insertionSort
        (fun u v => (neighbors cw v).length ≤ (neighbors cw u).length)).head?

/-- The `for value in self.order_domain_values(...)` loop of `backtrack`:
assign the value, recurse when the extended assignment is consistent,
propagate a found solution upward, and otherwise delete the value and try
the next one.  `bt` is the recursive call at the next depth; the domain
store is threaded unchanged through every call. -/
def btValues (cw : Crossword)
    (bt : Domains → Assign → Domains × Assign × Option Assign) (var : Variable) :
    List Word → Domains → Assign → Domains × Assign × Option Assign
  | [], doms, a => (doms, a, none)
  | value :: rest, doms, a =>
    let a1 := insertA a var value
    if consistent cw a1 then
      match bt doms a1 with
      | (d2, a2, some result) => (d2, a2, some result)
      | (d2, a2, none) => btValues cw bt var rest d2 (eraseA a2 var)
    else btValues cw bt var rest doms (eraseA a1 var)

/-- `backtrack`, on explicit fuel (one unit per recursion depth; the depth is
bounded by the number of unassigned variables): return the assignment when
complete, otherwise select an unassigned variable and try its ordered domain
values.  The result is `(final domain store, final assignment dict, returned
value)`. -/
def backtrack (cw : Crossword) : Nat → Domains → Assign → Domains × Assign × Option Assign
  | 0, doms, a => (doms, a, none)
  | fuel + 1, doms, a =>
    if assignment_complete cw a then (doms, a, some a)
    else
      match select_unassigned_variable cw doms a with
      | none => (doms, a, none)
      | some var =>
        btValues cw (fun d b => backtrack cw fuel d b) var
          (order_domain_values cw doms var a) doms a

/-- `solve`: enforce node consistency, run `ac3` (its Boolean result is
discarded by the source), then backtrack from the empty assignment. -/
def solve (cw : Crossword) : Option Assign :=
  let doms0 := initDomains cw
  let doms1 := enforce_node_consistency cw doms0
  let doms2 := (ac3 cw doms1).1
  (backtrack cw (cw.vars.length + 1) doms2 []).2.2

/-- One call mutating the domain store: node-consistency filtering, a single
`revise`, or an `ac3` run. -/
inductive DomOp where
  | enforceOp
  | reviseOp (x y : Variable)
  | ac3Op

/-- Apply one store-mutating call. -/
def applyOp (cw : Crossword) (doms : Domains) : DomOp → Domains
  | .enforceOp => enforce_node_consistency cw doms
  | .reviseOp x y => (revise cw x y doms).1
  | .ac3Op => (ac3 cw doms).1

/-- Apply a sequence of store-mutating calls in order. -/
def applyOps (cw : Crossword) (ops : List DomOp) (doms : Domains) : Domains :=
  ops.foldl (applyOp cw) doms

/-- A complete consistent solution for a puzzle model: one vocabulary word
per slot, of the slot's length, pairwise distinct, agreeing on every
overlap. -/
def IsSolution (cw : Crossword) (sol : Variable → Word) : Prop :=
  (∀ v ∈ cw.vars, sol v ∈ cw.words ∧ (sol v).length = v.length) ∧
  (∀ v1 ∈ cw.vars, ∀ v2 ∈ cw.vars, v1 ≠ v2 → sol v1 ≠ sol v2) ∧
  (∀ v1 ∈ cw.vars, ∀ v2 ∈ cw.vars,
    ((cw.overlaps v1 v2).all fun p => charAt (sol v1) p.1 == charAt (sol v2) p.2) = true)

/-- A concrete two-slot puzzle (the spec's crossing example): a horizontal
and a vertical slot of length 3 crossing at indices (1, 0), with vocabulary
CAT / ART / TIE. -/
def vH : Variable := ⟨0, 0, .across, 3⟩

/-- The vertical slot of the crossing example. -/
def vV : Variable := ⟨0, 1, .down, 3⟩

/-- Overlap relation of the crossing example. -/
def ovHV : Variable → Variable → Option (Nat × Nat) := fun x y =>
  if x = vH ∧ y = vV then some (1, 0)
  else if x = vV ∧ y = vH then some (0, 1) else none

/-- The solvable crossing puzzle. -/
def cwCross : Crossword := ⟨[vH, vV], [['C','A','T'], ['A','R','T'], ['T','I','E']], ovHV⟩

/-- Its store after node consistency. -/
def dCross : Domains := enforce_node_consistency cwCross (initDomains cwCross)

/-- Its unique solution. -/
def solCross : Variable → Word := fun v => if v = vH then ['C','A','T'] else ['A','R','T']

/-- The assignment found by the search on the crossing puzzle. -/
def rCross : Assign := [(vH, ['C','A','T']), (vV, ['A','R','T'])]

/-- An unsatisfiable variant (vocabulary CAT / TIE): AC-3 empties a domain. -/
def cwFail : Crossword := ⟨[vH, vV], [['C','A','T'], ['T','I','E']], ovHV⟩

/-- Its store after node consistency. -/
def dFail : Domains := enforce_node_consistency cwFail (initDomains cwFail)

/-- An isolated slot with no overlapping neighbor. -/
def vLone : Variable := ⟨2, 0, .across, 4⟩

/-- A puzzle with only the isolated slot and an empty vocabulary. -/
def cwLone : Crossword := ⟨[vLone], [], fun _ _ => none⟩

/-- The spec's arc-consistency property for the ordered pair `(x, y)`: every
word remaining in `x`'s domain has at least one word in `y`'s domain agreeing
at the overlap position. -/
def ArcOK (cw : Crossword) (doms : Domains) (x y : Variable) : Prop :=
  ∀ i j, cw.overlaps x y = some (i, j) →
    ∀ wx ∈ doms x, ∃ wy ∈ doms y, charAt wx i = charAt wy j

/-- Number of variables not yet assigned; bounds the remaining recursion
depth of `backtrack`. -/
def unassignedCount (cw : Crossword) (a : Assign) : Nat :=
  (cw.vars.filter (fun v => !hasKey a v)).length

instance : IsTotal (Word × Nat) (fun p q => p.2 ≤ q.2) :=
  ⟨fun a b => Nat.le_total a.2 b.2⟩

instance : IsTrans (Word × Nat) (fun p q => p.2 ≤ q.2) :=
  ⟨fun _ _ _ => Nat.le_trans⟩

/-! ### Lemmas about `revise` -/

theorem reviseAux_apply_ne (i j : Nat) (x y : Variable) :
    ∀ (pending : List Word) (doms : Domains) (b : Bool) (z : Variable), z ≠ x →
      (reviseAux i j x y pending doms b).1 z = doms z
  | [], _, _, _, _ => rfl
  | value_x :: rest, doms, b, z, hz => by
    rw [reviseAux]
    split
    · exact reviseAux_apply_ne i j x y rest doms b z hz
    · rw [reviseAux_apply_ne i j x y rest _ true z hz, updateD, if_neg hz]

theorem reviseAux_sublist (i j : Nat) (x y : Variable) :
    ∀ (pending : List Word) (doms : Domains) (b : Bool),
      ((reviseAux i j x y pending doms b).1 x).Sublist (doms x)
  | [], _, _ => List.Sublist.refl _
  | value_x :: rest, doms, b => by
    rw [reviseAux]
    split
    · exact reviseAux_sublist i j x y rest doms b
    · refine (reviseAux_sublist i j x y rest _ true).trans ?_
      simp only [updateD, if_pos rfl]
      exact List.erase_sublist _ _

theorem reviseAux_false (i j : Nat) (x y : Variable) :
    ∀ (pending : List Word) (doms : Domains) (b : Bool),
      (reviseAux i j x y pending doms b).2 = false →
        (reviseAux i j x y pending doms b).1 = doms ∧ b = false
  | [], _, _, h => ⟨rfl, h⟩
  | value_x :: rest, doms, b, h => by
    rw [reviseAux] at h ⊢
    by_cases hc : ((doms y).any fun value_y => charAt value_x i == charAt value_y j) = true
    · rw [if_pos hc] at h ⊢
      exact reviseAux_false i j x y rest doms b h
    · rw [if_neg hc] at h ⊢
      exact absurd (reviseAux_false i j x y rest _ true h).2 (by simp)

theorem reviseAux_shrink (i j : Nat) (x y : Variable) :
    ∀ (pending : List Word) (doms : Domains) (b : Bool),
      (∀ w, pending.count w ≤ (doms x).count w) →
      (reviseAux i j x y pending doms b).2 = true →
        b = true ∨ ((reviseAux i j x y pending doms b).1 x).length < (doms x).length
  | [], _, _, _, h => Or.inl h
  | value_x :: rest, doms, b, hcount, h => by
    rw [reviseAux] at h ⊢
    by_cases hc : ((doms y).any fun value_y => charAt value_x i == charAt value_y j) = true
    · rw [if_pos hc] at h ⊢
      exact reviseAux_shrink i j x y rest doms b
        (fun w => le_trans (List.count_le_count_cons w value_x rest) (hcount w)) h
    · rw [if_neg hc] at h ⊢
      refine Or.inr ?_
      have hmem : value_x ∈ doms x := by
        have h1 : 0 < (value_x :: rest).count value_x := by simp [List.count_cons]
        exact List.count_pos_iff.mp (lt_of_lt_of_le h1 (hcount value_x))
      have hsub := reviseAux_sublist i j x y rest (updateD doms x ((doms x).erase value_x)) true
      have hlen : ((doms x).erase value_x).length < (doms x).length := by
        rw [List.length_erase_of_mem hmem]
        exact Nat.sub_lt (List.length_pos_of_mem hmem) Nat.one_pos
      have hle := hsub.length_le
      simp only [updateD, if_pos rfl] at hle
      exact lt_of_le_of_lt hle hlen

theorem reviseAux_filter (i j : Nat) (x y : Variable) (hxy : x ≠ y) (dy : List Word) :
    ∀ (pending kept : List Word) (doms : Domains) (b : Bool),
      doms y = dy → doms x = kept ++ pending →
      (∀ w ∈ kept, (dy.any fun value_y => charAt w i == charAt value_y j) = true) →
      (reviseAux i j x y pending doms b).1 x =
        kept ++ pending.filter (fun w => dy.any fun value_y => charAt w i == charAt value_y j)
  | [], kept, doms, b, hy, hx, _ => by simpa using hx
  | value_x :: rest, kept, doms, b, hy, hx, hkept => by
    rw [reviseAux]
    by_cases hc : ((doms y).any fun value_y => charAt value_x i == charAt value_y j) = true
    · rw [if_pos hc]
      rw [reviseAux_filter i j x y hxy dy rest (kept ++ [value_x]) doms b hy
        (by simpa using hx)
        (by
          intro w hw
          rcases List.mem_append.mp hw with hw | hw
          · exact hkept w hw
          · simp only [List.mem_singleton] at hw
            subst hw
            rwa [hy] at hc)]
      simp [List.filter_cons, hy ▸ hc]
    · rw [if_neg hc]
      have hnotk : value_x ∉ kept := by
        intro hmem
        exact hc (hy ▸ hkept value_x hmem)
      have herase : (doms x).erase value_x = kept ++ rest := by
        rw [hx, List.erase_append_right _ hnotk, List.erase_cons_head]
      rw [reviseAux_filter i j x y hxy dy rest kept (updateD doms x ((doms x).erase value_x)) true
        (by rw [updateD, if_neg (Ne.symm hxy)]; exact hy)
        (by rw [updateD, if_pos rfl]; exact herase) hkept]
      have hcf : (dy.any fun value_y => charAt value_x i == charAt value_y j) = false := by
        rw [← hy]
        exact Bool.not_eq_true _ ▸ hc
      simp [List.filter_cons, hcf]

/-- Characterisation of `revise` when the two variables overlap: `x`'s domain
is filtered to the words with a corresponding value in `y`'s domain. -/
theorem revise_filter {cw : Crossword} {x y : Variable} {i j : Nat} (hxy : x ≠ y)
    (hov : cw.overlaps x y = some (i, j)) (doms : Domains) :
    (revise cw x y doms).1 x =
      (doms x).filter (fun w => (doms y).any fun value_y => charAt w i == charAt value_y j) := by
  rw [revise, hov]
  exact reviseAux_filter i j x y hxy (doms y) (doms x) [] doms false rfl rfl (by simp)

theorem revise_apply_ne (cw : Crossword) (x y z : Variable) (doms : Domains) (hz : z ≠ x) :
    (revise cw x y doms).1 z = doms z := by
  rw [revise]
  cases cw.overlaps x y with
  | none => rfl
  | some p => exact reviseAux_apply_ne p.1 p.2 x y (doms x) doms false z hz

theorem revise_sublist (cw : Crossword) (x y : Variable) (doms : Domains) :
    ((revise cw x y doms).1 x).Sublist (doms x) := by
  rw [revise]
  cases cw.overlaps x y with
  | none => exact List.Sublist.refl _
  | some p => exact reviseAux_sublist p.1 p.2 x y (doms x) doms false

theorem revise_false {cw : Crossword} {x y : Variable} {doms : Domains}
    (h : (revise cw x y doms).2 = false) : (revise cw x y doms).1 = doms := by
  rw [revise] at h ⊢
  cases hov : cw.overlaps x y with
  | none => rfl
  | some p =>
    rw [hov] at h
    exact (reviseAux_false p.1 p.2 x y (doms x) doms false h).1

theorem revise_shrink {cw : Crossword} {x y : Variable} {doms : Domains}
    (h : (revise cw x y doms).2 = true) :
    ((revise cw x y doms).1 x).length < (doms x).length := by
  rw [revise] at h ⊢
  cases hov : cw.overlaps x y with
  | none => rw [hov] at h; exact absurd h (by simp)
  | some p =>
    rw [hov] at h
    rcases reviseAux_shrink p.1 p.2 x y (doms x) doms false (fun _ => le_refl _) h with h' | h'
    · exact absurd h' (by simp)
    · exact h'

theorem revise_keep_all {cw : Crossword} {x y : Variable} {i j : Nat} {doms : Domains}
    (hov : cw.overlaps x y = some (i, j))
    (hall : ∀ w ∈ doms x, ((doms y).any fun value_y => charAt w i == charAt value_y j) = true) :
    revise cw x y doms = (doms, false) := by
  rw [revise, hov]
  have : ∀ (pending : List Word), (∀ w ∈ pending, ((doms y).any fun value_y =>
      charAt w i == charAt value_y j) = true) →
      reviseAux i j x y pending doms false = (doms, false) := by
    intro pending
    induction pending with
    | nil => intro _; rfl
    | cons w rest ih =>
      intro hp
      rw [reviseAux, if_pos (hp w (List.mem_cons_self _ _))]
      exact ih (fun w' hw' => hp w' (List.mem_cons_of_mem _ hw'))
  exact this (doms x) hall

theorem revise_none {cw : Crossword} {x y : Variable} (doms : Domains)
    (hov : cw.overlaps x y = none) : revise cw x y doms = (doms, false) := by
  rw [revise, hov]

/-! ### Lemmas about `ac3` -/

theorem ac3Go_cons (cw : Crossword) (fuel : Nat) (x y : Variable)
    (rest : List (Variable × Variable)) (doms : Domains) :
    ac3Go cw (fuel + 1) ((x, y) :: rest) doms =
      if (revise cw x y doms).2 then
        if ((revise cw x y doms).1 x).length = 0 then ((revise cw x y doms).1, false)
        else
          ac3Go cw fuel
            (rest ++ ((neighbors cw x).filter (fun z => z != y)).map (fun z => (z, x)))
            (revise cw x y doms).1
      else ac3Go cw fuel rest (revise cw x y doms).1 := rfl

theorem ac3Go_sublist (cw : Crossword) :
    ∀ (fuel : Nat) (queue : List (Variable × Variable)) (doms : Domains) (z : Variable),
      ((ac3Go cw fuel queue doms).1 z).Sublist (doms z)
  | 0, _, _, _ => List.Sublist.refl _
  | _ + 1, [], _, _ => List.Sublist.refl _
  | fuel + 1, (x, y) :: rest, doms, z => by
    rw [ac3Go_cons]
    by_cases hr : (revise cw x y doms).2 = true
    · rw [if_pos hr]
      by_cases hempty : ((revise cw x y doms).1 x).length = 0
      · rw [if_pos hempty]
        by_cases hz : z = x
        · subst hz; exact revise_sublist cw z y doms
        · rw [revise_apply_ne cw x y z doms hz]
      · rw [if_neg hempty]
        refine (ac3Go_sublist cw fuel _ _ z).trans ?_
        by_cases hz : z = x
        · subst hz; exact revise_sublist cw z y doms
        · rw [revise_apply_ne cw x y z doms hz]
    · rw [if_neg hr]
      refine (ac3Go_sublist cw fuel rest _ z).trans ?_
      rw [revise_false (Bool.not_eq_true _ ▸ hr)]

theorem ac3Go_false (cw : Crossword) :
    ∀ (fuel : Nat) (queue : List (Variable × Variable)) (doms : Domains),
      (∀ p ∈ queue, p.1 ∈ cw.vars) →
      (ac3Go cw fuel queue doms).2 = false →
        ∃ v ∈ cw.vars, (ac3Go cw fuel queue doms).1 v = [] ∧ doms v ≠ []
  | 0, _, _, _, h => absurd h (by simp [ac3Go])
  | _ + 1, [], _, _, h => absurd h (by simp [ac3Go])
  | fuel + 1, (x, y) :: rest, doms, hq, h => by
    rw [ac3Go_cons] at h ⊢
    by_cases hr : (revise cw x y doms).2 = true
    · rw [if_pos hr] at h ⊢
      by_cases hempty : ((revise cw x y doms).1 x).length = 0
      · rw [if_pos hempty] at h ⊢
        refine ⟨x, hq (x, y) (List.mem_cons_self _ _), List.length_eq_zero.mp hempty, ?_⟩
        intro hnil
        have := revise_shrink hr
        rw [hnil] at this
        exact absurd this (by simp)
      · rw [if_neg hempty] at h ⊢
        have hq' : ∀ p ∈ rest ++ ((neighbors cw x).filter (fun z => z != y)).map
            (fun z => (z, x)), p.1 ∈ cw.vars := by
          intro p hp
          rcases List.mem_append.mp hp with hp | hp
          · exact hq p (List.mem_cons_of_mem _ hp)
          · rcases List.mem_map.mp hp with ⟨z, hz, rfl⟩
            exact (List.mem_filter.mp (List.mem_filter.mp hz).1).1
        rcases ac3Go_false cw fuel _ _ hq' h with ⟨v, hv, hnil, hne⟩
        refine ⟨v, hv, hnil, ?_⟩
        intro hd
        apply hne
        by_cases hvx : v = x
        · subst hvx
          exact List.sublist_nil.mp (hd ▸ revise_sublist cw v y doms)
        · rw [revise_apply_ne cw x y v doms hvx, hd]
    · rw [if_neg hr] at h ⊢
      rw [revise_false (Bool.not_eq_true _ ▸ hr)] at h ⊢
      exact ac3Go_false cw fuel rest doms (fun p hp => hq p (List.mem_cons_of_mem _ hp)) h

theorem revise_true_overlap {cw : Crossword} {x y : Variable} {doms : Domains}
    (h : (revise cw x y doms).2 = true) : ∃ i j, cw.overlaps x y = some (i, j) := by
  cases hov : cw.overlaps x y with
  | none => rw [revise_none doms hov] at h; exact absurd h (by simp)
  | some p => exact ⟨p.1, p.2, by simp [hov]⟩

theorem mem_defaultArcs {cw : Crossword} {p : Variable × Variable} :
    p ∈ defaultArcs cw ↔ p.1 ∈ cw.vars ∧ p.2 ∈ cw.vars ∧ (cw.overlaps p.1 p.2).isSome := by
  obtain ⟨x, y⟩ := p
  constructor
  · intro hp
    rcases List.mem_flatten.mp hp with ⟨l, hl, hpl⟩
    rcases List.mem_map.mp hl with ⟨x', hx', rfl⟩
    rcases List.mem_map.mp hpl with ⟨y', hy', heq⟩
    injection heq with h1 h2
    subst h1
    subst h2
    have hf := List.mem_filter.mp hy'
    exact ⟨hx', hf.1, hf.2⟩
  · rintro ⟨h1, h2, h3⟩
    exact List.mem_flatten.mpr ⟨_, List.mem_map.mpr ⟨x, h1, rfl⟩,
      List.mem_map.mpr ⟨y, List.mem_filter.mpr ⟨h2, h3⟩, rfl⟩⟩

theorem totalSize_revise_lt {cw : Crossword} {x y : Variable} {doms : Domains}
    (hx : x ∈ cw.vars) (hr : (revise cw x y doms).2 = true) :
    totalSize cw (revise cw x y doms).1 < totalSize cw doms := by
  apply List.sum_lt_sum (fun v => ((revise cw x y doms).1 v).length)
    (fun v => (doms v).length)
  · intro v _
    by_cases hvx : v = x
    · subst hvx; exact (revise_sublist cw v y doms).length_le
    · rw [revise_apply_ne cw x y v doms hvx]
  · exact ⟨x, hx, revise_shrink hr⟩

theorem measure_arith (a b c n r : Nat) (hab : a < b) (hc : c ≤ n) :
    a * (n + 1) + (r + c) < b * (n + 1) + (r + 1) := by
  have he : (a + 1) * (n + 1) = a * (n + 1) + (n + 1) := by ring
  have hm : (a + 1) * (n + 1) ≤ b * (n + 1) := Nat.mul_le_mul_right _ hab
  omega

theorem appended_length_le (cw : Crossword) (x y : Variable) :
    (((neighbors cw x).filter (fun z => z != y)).map (fun z => (z, x))).length ≤
      cw.vars.length := by
  rw [List.length_map]
  exact le_trans ((List.filter_sublist _).length_le)
    ((List.filter_sublist _).length_le)

theorem ac3Measure_lt_revised {cw : Crossword} {x y : Variable} {doms : Domains}
    (rest : List (Variable × Variable)) (hx : x ∈ cw.vars)
    (hr : (revise cw x y doms).2 = true) :
    ac3Measure cw
      (rest ++ ((neighbors cw x).filter (fun z => z != y)).map (fun z => (z, x)))
      (revise cw x y doms).1 < ac3Measure cw ((x, y) :: rest) doms := by
  simp only [ac3Measure, List.length_append, List.length_cons]
  exact measure_arith _ _ _ _ rest.length (totalSize_revise_lt hx hr)
    (appended_length_le cw x y)

theorem ac3Measure_lt_pop {cw : Crossword} {doms : Domains} (p : Variable × Variable)
    (rest : List (Variable × Variable)) :
    ac3Measure cw rest doms < ac3Measure cw (p :: rest) doms := by
  simp only [ac3Measure, List.length_cons]
  omega

theorem overlap_ne {cw : Crossword} (hwf : WF cw) {x y : Variable} {i j : Nat}
    (hx : x ∈ cw.vars) (hov : cw.overlaps x y = some (i, j)) : x ≠ y := by
  intro he
  subst he
  rw [hwf.self_overlap x hx] at hov
  cases hov

theorem revise_false_arcOK {cw : Crossword} (hwf : WF cw) {x y : Variable} {doms : Domains}
    (hx : x ∈ cw.vars) (hr : (revise cw x y doms).2 = false) : ArcOK cw doms x y := by
  intro i j hov wx hwx
  have hne : x ≠ y := overlap_ne hwf hx hov
  have hf := revise_filter hne hov doms
  rw [revise_false hr] at hf
  have hall := List.filter_eq_self.mp hf.symm
  rcases List.any_eq_true.mp (hall wx hwx) with ⟨wy, hwy, hbeq⟩
  exact ⟨wy, hwy, by simpa using hbeq⟩

theorem revise_true_arcOK {cw : Crossword} (hwf : WF cw) {x y : Variable} {doms : Domains}
    (hx : x ∈ cw.vars) : ArcOK cw (revise cw x y doms).1 x y := by
  intro i j hov wx hwx
  have hne : x ≠ y := overlap_ne hwf hx hov
  rw [revise_filter hne hov doms] at hwx
  rcases List.any_eq_true.mp (List.mem_filter.mp hwx).2 with ⟨wy, hwy, hbeq⟩
  refine ⟨wy, ?_, by simpa using hbeq⟩
  rw [revise_apply_ne cw x y y doms (Ne.symm hne)]
  exact hwy

theorem revise_preserves_reverse {cw : Crossword} (hwf : WF cw) {x y : Variable}
    {doms : Domains} (hx : x ∈ cw.vars) (hy : y ∈ cw.vars)
    (hok : ArcOK cw doms y x) : ArcOK cw (revise cw x y doms).1 y x := by
  by_cases hne : x = y
  · subst hne
    rw [revise_none doms (hwf.self_overlap x hx)]
    exact hok
  · intro j' i' hov wy hwy
    rw [revise_apply_ne cw x y y doms (Ne.symm hne)] at hwy
    rcases hok j' i' hov wy hwy with ⟨wx, hwx, heq⟩
    have hov' : cw.overlaps x y = some (i', j') := by
      rw [hwf.symm y hy x hx, hov]
      rfl
    refine ⟨wx, ?_, heq⟩
    rw [revise_filter hne hov' doms]
    refine List.mem_filter.mpr ⟨hwx, List.any_eq_true.mpr ⟨wy, hwy, ?_⟩⟩
    simp [heq.symm]

theorem revise_preserves_other {cw : Crossword} {x y u v : Variable} {doms : Domains}
    (hvx : v ≠ x) (hok : ArcOK cw doms u v) : ArcOK cw (revise cw x y doms).1 u v := by
  intro i j hov wu hwu
  have hwu' : wu ∈ doms u := by
    by_cases hux : u = x
    · subst hux
      exact (revise_sublist cw u y doms).subset hwu
    · rwa [revise_apply_ne cw x y u doms hux] at hwu
  rcases hok i j hov wu hwu' with ⟨wv, hwv, heq⟩
  exact ⟨wv, by rwa [revise_apply_ne cw x y v doms hvx], heq⟩

theorem ac3Go_arc_consistent (cw : Crossword) (hwf : WF cw) :
    ∀ (fuel : Nat) (queue : List (Variable × Variable)) (doms : Domains),
      ac3Measure cw queue doms < fuel →
      (∀ p ∈ queue, p.1 ∈ cw.vars ∧ p.2 ∈ cw.vars) →
      (∀ u ∈ cw.vars, ∀ v ∈ cw.vars, (u, v) ∈ queue ∨ ArcOK cw doms u v) →
      (ac3Go cw fuel queue doms).2 = true →
      ∀ u ∈ cw.vars, ∀ v ∈ cw.vars, ArcOK cw (ac3Go cw fuel queue doms).1 u v
  | 0, _, _, hm, _, _, _ => absurd hm (Nat.not_lt_zero _)
  | fuel + 1, [], doms, _, _, hinv, _ => by
    intro u hu v hv
    rcases hinv u hu v hv with h | h
    · exact absurd h (List.not_mem_nil _)
    · exact h
  | fuel + 1, (x, y) :: rest, doms, hm, hq, hinv, hres => by
    rw [ac3Go_cons] at hres ⊢
    have hx : x ∈ cw.vars := (hq (x, y) (List.mem_cons_self _ _)).1
    have hy : y ∈ cw.vars := (hq (x, y) (List.mem_cons_self _ _)).2
    by_cases hr : (revise cw x y doms).2 = true
    · rw [if_pos hr] at hres ⊢
      by_cases hempty : ((revise cw x y doms).1 x).length = 0
      · rw [if_pos hempty] at hres
        exact absurd hres (by simp)
      · rw [if_neg hempty] at hres ⊢
        refine ac3Go_arc_consistent cw hwf fuel _ _ ?_ ?_ ?_ hres
        · exact lt_of_lt_of_le (ac3Measure_lt_revised rest hx hr) (Nat.lt_succ_iff.mp hm)
        · intro p hp
          rcases List.mem_append.mp hp with hp | hp
          · exact hq p (List.mem_cons_of_mem _ hp)
          · rcases List.mem_map.mp hp with ⟨z, hz, rfl⟩
            exact ⟨(List.mem_filter.mp (List.mem_filter.mp hz).1).1, hx⟩
        · intro u hu v hv
          rcases hinv u hu v hv with hmem | hok
          · rcases List.mem_cons.mp hmem with heq | hmem'
            · right
              injection heq with e1 e2
              subst e1
              subst e2
              exact revise_true_arcOK hwf hx
            · exact Or.inl (List.mem_append_left _ hmem')
          · by_cases hvx : v = x
            · subst hvx
              by_cases huy : u = y
              · subst huy
                exact Or.inr (revise_preserves_reverse hwf hx hy hok)
              · cases houx : cw.overlaps u v with
                | none =>
                  right
                  intro i j hov
                  rw [houx] at hov
                  cases hov
                | some p =>
                  left
                  refine List.mem_append_right _ (List.mem_map.mpr ⟨u, ?_, rfl⟩)
                  refine List.mem_filter.mpr ⟨List.mem_filter.mpr ⟨hu, ?_⟩, ?_⟩
                  · have hux : u ≠ v := overlap_ne hwf hu houx
                    simp [hux, houx]
                  · simp [huy]
            · exact Or.inr (revise_preserves_other hvx hok)
    · rw [if_neg hr] at hres ⊢
      have hrf : (revise cw x y doms).1 = doms := revise_false (Bool.not_eq_true _ ▸ hr)
      rw [hrf] at hres ⊢
      refine ac3Go_arc_consistent cw hwf fuel rest doms ?_ ?_ ?_ hres
      · exact lt_of_lt_of_le (ac3Measure_lt_pop (x, y) rest) (Nat.lt_succ_iff.mp hm)
      · exact fun p hp => hq p (List.mem_cons_of_mem _ hp)
      · intro u hu v hv
        rcases hinv u hu v hv with hmem | hok
        · rcases List.mem_cons.mp hmem with heq | hmem'
          · right
            injection heq with e1 e2
            subst e1
            subst e2
            exact revise_false_arcOK hwf hx (Bool.not_eq_true _ ▸ hr)
          · exact Or.inl hmem'
        · exact Or.inr hok

/-- After `ac3` (default arcs) returns `True`, every ordered pair of slots
with a defined overlap is arc-consistent. -/
theorem ac3_arc_consistent {cw : Crossword} (hwf : WF cw) (doms : Domains)
    (hres : (ac3 cw doms).2 = true) :
    ∀ u ∈ cw.vars, ∀ v ∈ cw.vars, ArcOK cw (ac3 cw doms).1 u v := by
  refine ac3Go_arc_consistent cw hwf _ _ _ (Nat.lt_succ_self _) ?_ ?_ hres
  · intro p hp
    have := mem_defaultArcs.mp hp
    exact ⟨this.1, this.2.1⟩
  · intro u hu v hv
    cases houv : cw.overlaps u v with
    | none =>
      right
      intro i j hov
      rw [houv] at hov
      cases hov
    | some p =>
      left
      exact mem_defaultArcs.mpr ⟨hu, hv, by simp [houv]⟩

theorem solution_overlap_char {cw : Crossword} {sol : Variable → Word}
    (hsol : IsSolution cw sol) {v1 v2 : Variable} {i j : Nat}
    (h1 : v1 ∈ cw.vars) (h2 : v2 ∈ cw.vars) (hov : cw.overlaps v1 v2 = some (i, j)) :
    charAt (sol v1) i = charAt (sol v2) j := by
  have h := hsol.2.2 v1 h1 v2 h2
  rw [hov] at h
  simpa using h

theorem revise_preserves_sol {cw : Crossword} (hwf : WF cw) {sol : Variable → Word}
    (hsol : IsSolution cw sol) {x y : Variable} {doms : Domains}
    (hy : y ∈ cw.vars) (hd : ∀ v ∈ cw.vars, sol v ∈ doms v) :
    ∀ v ∈ cw.vars, sol v ∈ (revise cw x y doms).1 v := by
  intro v hv
  by_cases hvx : v = x
  · subst hvx
    cases hov : cw.overlaps v y with
    | none =>
      rw [revise_none doms hov]
      exact hd v hv
    | some p =>
      obtain ⟨i, j⟩ := p
      have hne : v ≠ y := overlap_ne hwf hv hov
      rw [revise_filter hne hov doms]
      refine List.mem_filter.mpr ⟨hd v hv, List.any_eq_true.mpr ⟨sol y, hd y hy, ?_⟩⟩
      simp [solution_overlap_char hsol hv hy hov]
  · rw [revise_apply_ne cw x y v doms hvx]
    exact hd v hv

theorem ac3Go_preserves_solution (cw : Crossword) (hwf : WF cw) {sol : Variable → Word}
    (hsol : IsSolution cw sol) :
    ∀ (fuel : Nat) (queue : List (Variable × Variable)) (doms : Domains),
      (∀ p ∈ queue, p.1 ∈ cw.vars ∧ p.2 ∈ cw.vars) →
      (∀ v ∈ cw.vars, sol v ∈ doms v) →
      (∀ v ∈ cw.vars, sol v ∈ (ac3Go cw fuel queue doms).1 v) ∧
        (ac3Go cw fuel queue doms).2 = true
  | 0, _, _, _, hd => ⟨hd, rfl⟩
  | _ + 1, [], _, _, hd => ⟨hd, rfl⟩
  | fuel + 1, (x, y) :: rest, doms, hq, hd => by
    rw [ac3Go_cons]
    have hx : x ∈ cw.vars := (hq (x, y) (List.mem_cons_self _ _)).1
    have hy : y ∈ cw.vars := (hq (x, y) (List.mem_cons_self _ _)).2
    have hd' : ∀ v ∈ cw.vars, sol v ∈ (revise cw x y doms).1 v :=
      revise_preserves_sol hwf hsol hy hd
    by_cases hr : (revise cw x y doms).2 = true
    · rw [if_pos hr]
      by_cases hempty : ((revise cw x y doms).1 x).length = 0
      · exact absurd (hd' x hx)
          (by rw [List.length_eq_zero.mp hempty]; exact List.not_mem_nil _)
      · rw [if_neg hempty]
        refine ac3Go_preserves_solution cw hwf hsol fuel _ _ ?_ hd'
        intro p hp
        rcases List.mem_append.mp hp with hp | hp
        · exact hq p (List.mem_cons_of_mem _ hp)
        · rcases List.mem_map.mp hp with ⟨z, hz, rfl⟩
          exact ⟨(List.mem_filter.mp (List.mem_filter.mp hz).1).1, hx⟩
    · rw [if_neg hr, revise_false (Bool.not_eq_true _ ▸ hr)]
      exact ac3Go_preserves_solution cw hwf hsol fuel rest doms
        (fun p hp => hq p (List.mem_cons_of_mem _ hp)) hd

/-- AC-3 never removes a word that takes part in a complete consistent
solution, and it reports success when such a solution survives in the
store. -/
theorem ac3_preserves_solution {cw : Crossword} (hwf : WF cw) {sol : Variable → Word}
    (hsol : IsSolution cw sol) (doms : Domains) (hd : ∀ v ∈ cw.vars, sol v ∈ doms v) :
    (∀ v ∈ cw.vars, sol v ∈ (ac3 cw doms).1 v) ∧ (ac3 cw doms).2 = true := by
  refine ac3Go_preserves_solution cw hwf hsol _ _ _ ?_ hd
  intro p hp
  have h := mem_defaultArcs.mp hp
  exact ⟨h.1, h.2.1⟩

theorem ac3Go_no_removal (cw : Crossword) (hwf : WF cw) :
    ∀ (queue : List (Variable × Variable)) (fuel : Nat) (doms : Domains),
      queue.length < fuel →
      (∀ p ∈ queue, p.1 ∈ cw.vars ∧ p.2 ∈ cw.vars) →
      (∀ u ∈ cw.vars, ∀ v ∈ cw.vars, ArcOK cw doms u v) →
      ac3Go cw fuel queue doms = (doms, true)
  | [], fuel, doms, hf, _, _ => by
    cases fuel with
    | zero => exact absurd hf (by simp)
    | succ n => rfl
  | (x, y) :: rest, fuel, doms, hf, hq, hok => by
    cases fuel with
    | zero => exact absurd hf (by simp)
    | succ n =>
      rw [ac3Go_cons]
      have hx : x ∈ cw.vars := (hq (x, y) (List.mem_cons_self _ _)).1
      have hy : y ∈ cw.vars := (hq (x, y) (List.mem_cons_self _ _)).2
      have hrev : revise cw x y doms = (doms, false) := by
        cases hov : cw.overlaps x y with
        | none => exact revise_none doms hov
        | some p =>
          obtain ⟨i, j⟩ := p
          refine revise_keep_all hov ?_
          intro w hw
          rcases hok x hx y hy i j hov w hw with ⟨wy, hwy, heq⟩
          exact List.any_eq_true.mpr ⟨wy, hwy, by simp [heq]⟩
      rw [hrev]
      rw [if_neg (by simp)]
      exact ac3Go_no_removal cw hwf rest n doms (Nat.succ_lt_succ_iff.mp hf)
        (fun p hp => hq p (List.mem_cons_of_mem _ hp)) hok

/-! ### Lemmas about assignments and `consistent` -/

theorem hasKey_iff {a : Assign} {v : Variable} : hasKey a v = true ↔ ∃ w, (v, w) ∈ a := by
  simp only [hasKey, List.any_eq_true, beq_iff_eq]
  constructor
  · rintro ⟨⟨pv, pw⟩, hp, rfl⟩
    exact ⟨pw, hp⟩
  · rintro ⟨w, hw⟩
    exact ⟨(v, w), hw, rfl⟩

theorem hasKey_insertA (a : Assign) (var v : Variable) (w : Word) :
    hasKey (insertA a var w) v = (hasKey a v || (var == v)) := by
  simp [hasKey, insertA]

theorem eraseA_insertA {a : Assign} {var : Variable} (w : Word) (h : hasKey a var = false) :
    eraseA (insertA a var w) var = a := by
  rw [insertA, eraseA, List.eraseP_append_right]
  · simp [List.eraseP_cons]
  · intro b hb
    have := List.any_eq_false.mp h b hb
    simp_all

theorem eraseA_sublist (a : Assign) (var : Variable) : (eraseA a var).Sublist a :=
  List.eraseP_sublist a

theorem consistent_values_nodup {cw : Crossword} {a : Assign}
    (h : consistent cw a = true) : (a.map Prod.snd).Nodup := by
  rw [consistent] at h
  by_cases hc : ((a.map Prod.snd).dedup.length != a.length) = true
  · rw [if_pos hc] at h
    cases h
  · have hlen : (a.map Prod.snd).dedup.length = a.length := by simpa using hc
    have hsub : (a.map Prod.snd).dedup.Sublist (a.map Prod.snd) := List.dedup_sublist _
    have heq : (a.map Prod.snd).dedup = a.map Prod.snd :=
      hsub.eq_of_length (by rw [hlen, List.length_map])
    rw [← heq]
    exact List.nodup_dedup _

theorem consistent_distinct_words {cw : Crossword} {a : Assign}
    (h : consistent cw a = true) :
    ∀ p1 ∈ a, ∀ p2 ∈ a, p1.1 ≠ p2.1 → p1.2 ≠ p2.2 := by
  have hnd := consistent_values_nodup h
  rw [List.Nodup, List.pairwise_map] at hnd
  intro p1 hp1 p2 hp2 hk
  exact hnd.forall (fun p q hpq => Ne.symm hpq) hp1 hp2 (fun he => hk (by rw [he]))

theorem consistent_pairs {cw : Crossword} {a : Assign} (h : consistent cw a = true) :
    ∀ p1 ∈ a, ∀ p2 ∈ a, p1.1 ≠ p2.1 →
      ∀ i j, cw.overlaps p1.1 p2.1 = some (i, j) → charAt p1.2 i = charAt p2.2 j := by
  rw [consistent] at h
  by_cases hc : ((a.map Prod.snd).dedup.length != a.length) = true
  · rw [if_pos hc] at h
    cases h
  · rw [if_neg hc] at h
    intro p1 hp1 p2 hp2 hk i j hov
    have h1 := List.all_eq_true.mp (List.all_eq_true.mp h p1 hp1) p2 hp2
    rw [if_neg hk, hov] at h1
    simpa using h1

theorem consistent_of_solution {cw : Crossword} {sol : Variable → Word}
    (hsol : IsSolution cw sol) {a : Assign} (hkeys : (a.map Prod.fst).Nodup)
    (hmem : ∀ p ∈ a, p.1 ∈ cw.vars ∧ p.2 = sol p.1) : consistent cw a = true := by
  rw [consistent]
  have hvnodup : (a.map Prod.snd).Nodup := by
    rw [List.Nodup, List.pairwise_map]
    rw [List.Nodup, List.pairwise_map] at hkeys
    refine hkeys.imp_of_mem ?_
    intro p q hp hq hne
    have h1 := hmem p hp
    have h2 := hmem q hq
    rw [h1.2, h2.2]
    exact hsol.2.1 p.1 h1.1 q.1 h2.1 hne
  have hlen : (a.map Prod.snd).dedup.length = a.length := by
    rw [List.dedup_eq_self.mpr hvnodup, List.length_map]
  rw [if_neg (by simp [hlen])]
  refine List.all_eq_true.mpr fun p1 hp1 => List.all_eq_true.mpr fun p2 hp2 => ?_
  by_cases hk : p1.1 = p2.1
  · rw [if_pos hk]
  · rw [if_neg hk]
    cases hov : cw.overlaps p1.1 p2.1 with
    | none => rfl
    | some pij =>
      obtain ⟨i, j⟩ := pij
      have h1 := hmem p1 hp1
      have h2 := hmem p2 hp2
      rw [h1.2, h2.2]
      simp [solution_overlap_char hsol h1.1 h2.1 hov]

theorem consistent_nil (cw : Crossword) : consistent cw [] = true := by
  rw [consistent]
  simp

/-! ### Lemmas about `order_domain_values` -/

theorem order_domain_values_perm (cw : Crossword) (doms : Domains) (var : Variable)
    (a : Assign) : (order_domain_values cw doms var a).Perm (doms var) := by
  rw [order_domain_values]
  refine ((List.perm_insertionSort _ _).map Prod.fst).trans ?_
  rw [List.map_map,
    show (Prod.fst ∘ fun value => (value, ruleOutCount cw doms a var value)) = id from rfl,
    List.map_id]

theorem order_domain_values_sorted (cw : Crossword) (doms : Domains) (var : Variable)
    (a : Assign) :
    List.Pairwise
      (fun w1 w2 => ruleOutCount cw doms a var w1 ≤ ruleOutCount cw doms a var w2)
      (order_domain_values cw doms var a) := by
  rw [order_domain_values]
  rw [List.pairwise_map]
  have hsorted := List.sorted_insertionSort (fun p q : Word × Nat => p.2 ≤ q.2)
    ((doms var).map (fun value => (value, ruleOutCount cw doms a var value)))
  refine hsorted.imp_of_mem ?_
  intro p q hp hq hle
  rcases List.mem_map.mp (List.mem_insertionSort _ |>.mp hp) with ⟨vp, _, rfl⟩
  rcases List.mem_map.mp (List.mem_insertionSort _ |>.mp hq) with ⟨vq, _, rfl⟩
  exact hle

theorem order_domain_values_stable (cw : Crossword) (doms : Domains) (var : Variable)
    (a : Assign) (c : Nat) :
    (order_domain_values cw doms var a).filter
        (fun w => ruleOutCount cw doms a var w == c) =
      (doms var).filter (fun w => ruleOutCount cw doms a var w == c) := by
  rw [order_domain_values]
  set cnt := fun value => ruleOutCount cw doms a var value with hcnt
  set f := fun value => (value, cnt value) with hf
  set pairs := (doms var).map f with hpairs
  set sorted := pairs.insertionSort (fun p q => p.2 ≤ q.2) with hsorted
  set q : Word × Nat → Bool := fun p => p.2 == c with hq
  have hpc : ∀ p ∈ pairs, p.2 = cnt p.1 := by
    intro p hp
    rcases List.mem_map.mp hp with ⟨v, _, rfl⟩
    rfl
  have hspc : ∀ p ∈ sorted, p.2 = cnt p.1 := by
    intro p hp
    exact hpc p (List.mem_insertionSort _ |>.mp hp)
  have hS : (pairs.filter q).Sublist sorted := by
    refine List.sublist_insertionSort ?_ (List.filter_sublist _)
    refine List.pairwise_of_forall_mem_list ?_
    intro p hp p' hp'
    have h1 : (p.2 == c) = true := (List.mem_filter.mp hp).2
    have h2 : (p'.2 == c) = true := (List.mem_filter.mp hp').2
    rw [beq_iff_eq] at h1 h2
    rw [h1, h2]
  have hSfilter : (pairs.filter q).filter q = pairs.filter q :=
    List.filter_eq_self.mpr (fun p hp => (List.mem_filter.mp hp).2)
  have hsub2 : (pairs.filter q).Sublist (sorted.filter q) := hSfilter ▸ hS.filter q
  have hleneq : (sorted.filter q).length = (pairs.filter q).length :=
    ((List.perm_insertionSort _ pairs).filter q).length_eq
  have hSeq : pairs.filter q = sorted.filter q := hsub2.eq_of_length hleneq.symm
  have hleft : (sorted.map Prod.fst).filter (fun w => cnt w == c) =
      (sorted.filter q).map Prod.fst := by
    rw [List.filter_map]
    congr 1
    refine List.filter_congr ?_
    intro p hp
    simp only [Function.comp, hq]
    rw [hspc p hp]
  have hright : (pairs.filter q).map Prod.fst =
      (doms var).filter (fun w => cnt w == c) := by
    rw [hpairs, List.filter_map, List.map_map]
    have hqf : (q ∘ f) = fun w => cnt w == c := rfl
    rw [hqf, show (Prod.fst ∘ f) = id from rfl, List.map_id]
  rw [hleft, ← hSeq, hright]

/-! ### Lemmas about `select_unassigned_variable` -/

theorem head?_mem {α : Type} {l : List α} {x : α} (h : l.head? = some x) : x ∈ l := by
  cases l with
  | nil => cases h
  | cons a t =>
    rw [List.head?_cons] at h
    injection h with h
    rw [← h]
    exact List.mem_cons_self _ _

theorem select_unassigned_variable_spec {cw : Crossword} {doms : Domains} {a : Assign}
    {var : Variable} (h : select_unassigned_variable cw doms a = some var) :
    var ∈ cw.vars ∧ hasKey a var = false := by
  rw [select_unassigned_variable] at h
  cases hu : (cw.vars.filter (fun v => !hasKey a v)).insertionSort
      (fun u v => (doms u).length ≤ (doms v).length) with
  | nil => rw [hu] at h; cases h
  | cons first restS =>
    rw [hu] at h
    dsimp only at h
    have hvar : var ∈ first :: restS := by
      by_cases hone : ((first :: restS).filter
          (fun v => (doms v).length == (doms first).length)).length = 1
      · rw [if_pos hone] at h
        exact (List.mem_filter.mp (head?_mem h)).1
      · rw [if_neg hone] at h
        have := head?_mem h
        rw [List.mem_insertionSort] at this
        exact (List.mem_filter.mp this).1
    rw [← hu, List.mem_insertionSort, List.mem_filter] at hvar
    exact ⟨hvar.1, by simpa using hvar.2⟩

theorem select_unassigned_variable_isSome {cw : Crossword} {doms : Domains} {a : Assign}
    (h : assignment_complete cw a = false) :
    ∃ var, select_unassigned_variable cw doms a = some var := by
  rw [assignment_complete] at h
  rcases List.all_eq_false.mp h with ⟨v, hv, hk⟩
  have hvmem : v ∈ (cw.vars.filter (fun v => !hasKey a v)).insertionSort
      (fun u v => (doms u).length ≤ (doms v).length) := by
    rw [List.mem_insertionSort, List.mem_filter]
    exact ⟨hv, by simpa using hk⟩
  rw [select_unassigned_variable]
  cases hu : (cw.vars.filter (fun v => !hasKey a v)).insertionSort
      (fun u v => (doms u).length ≤ (doms v).length) with
  | nil => rw [hu] at hvmem; cases hvmem
  | cons first restS =>
    dsimp only
    have htied : first ∈ (first :: restS).filter
        (fun v => (doms v).length == (doms first).length) :=
      List.mem_filter.mpr ⟨List.mem_cons_self _ _, by simp⟩
    by_cases hone : ((first :: restS).filter
        (fun v => (doms v).length == (doms first).length)).length = 1
    · rw [if_pos hone]
      cases hc : (first :: restS).filter (fun v => (doms v).length == (doms first).length) with
      | nil => rw [hc] at htied; cases htied
      | cons t ts => exact ⟨t, rfl⟩
    · rw [if_neg hone]
      cases hc : ((first :: restS).filter
          (fun v => (doms v).length == (doms first).length)).insertionSort
          (fun u v => (neighbors cw v).length ≤ (neighbors cw u).length) with
      | nil =>
        exfalso
        have hlen0 := congrArg List.length hc
        rw [List.length_insertionSort] at hlen0
        rw [List.length_eq_zero.mp hlen0] at htied
        cases htied
      | cons t ts => exact ⟨t, rfl⟩

/-! ### Lemmas about `backtrack` -/

theorem btValues_doms (cw : Crossword)
    (bt : Domains → Assign → Domains × Assign × Option Assign)
    (hbt : ∀ d b, (bt d b).1 = d) (var : Variable) :
    ∀ (values : List Word) (doms : Domains) (a : Assign),
      (btValues cw bt var values doms a).1 = doms
  | [], _, _ => rfl
  | value :: rest, doms, a => by
    rw [btValues]
    by_cases hc : consistent cw (insertA a var value) = true
    · rw [if_pos hc]
      rcases hbe : bt doms (insertA a var value) with ⟨d2, a2, r⟩
      have hd2 : d2 = doms := by
        have h0 := hbt doms (insertA a var value)
        rw [hbe] at h0
        exact h0
      cases r with
      | some result => exact hd2
      | none =>
        dsimp only
        rw [btValues_doms cw bt hbt var rest d2 (eraseA a2 var)]
        exact hd2
    · rw [if_neg hc]
      exact btValues_doms cw bt hbt var rest doms _

/-- The search engine threads the domain store through unchanged: `backtrack`
never writes to it. -/
theorem backtrack_doms (cw : Crossword) :
    ∀ (fuel : Nat) (doms : Domains) (a : Assign), (backtrack cw fuel doms a).1 = doms
  | 0, _, _ => rfl
  | fuel + 1, doms, a => by
    rw [backtrack]
    by_cases hcomp : assignment_complete cw a = true
    · rw [if_pos hcomp]
    · rw [if_neg hcomp]
      cases hs : select_unassigned_variable cw doms a with
      | none => rfl
      | some var =>
        exact btValues_doms cw _ (fun d b => backtrack_doms cw fuel d b) var _ doms a

theorem btValues_restore (cw : Crossword)
    (bt : Domains → Assign → Domains × Assign × Option Assign)
    (hbt : ∀ d b, (bt d b).2.2 = none → (bt d b).2.1 = b) (var : Variable) :
    ∀ (values : List Word) (doms : Domains) (a : Assign), hasKey a var = false →
      (btValues cw bt var values doms a).2.2 = none →
      (btValues cw bt var values doms a).2.1 = a
  | [], _, _, _, _ => rfl
  | value :: rest, doms, a, hk, hnone => by
    rw [btValues] at hnone ⊢
    by_cases hc : consistent cw (insertA a var value) = true
    · rw [if_pos hc] at hnone ⊢
      rcases hbe : bt doms (insertA a var value) with ⟨d2, a2, r⟩
      rw [hbe] at hnone
      cases r with
      | some result => cases hnone
      | none =>
        dsimp only at hnone ⊢
        have ha2 : a2 = insertA a var value := by
          have h0 := hbt doms (insertA a var value) (by rw [hbe])
          rw [hbe] at h0
          exact h0
        have her : eraseA a2 var = a := by
          rw [ha2]
          exact eraseA_insertA value hk
        rw [her] at hnone ⊢
        exact btValues_restore cw bt hbt var rest d2 a hk hnone
    · rw [if_neg hc] at hnone ⊢
      rw [eraseA_insertA value hk] at hnone ⊢
      exact btValues_restore cw bt hbt var rest doms a hk hnone

/-- On a `None` result, `backtrack` leaves the assignment dict exactly as it
was at entry: every tentative extension has been undone. -/
theorem backtrack_restore (cw : Crossword) :
    ∀ (fuel : Nat) (doms : Domains) (a : Assign),
      (backtrack cw fuel doms a).2.2 = none → (backtrack cw fuel doms a).2.1 = a
  | 0, _, _, _ => rfl
  | fuel + 1, doms, a, hnone => by
    rw [backtrack] at hnone ⊢
    by_cases hcomp : assignment_complete cw a = true
    · rw [if_pos hcomp] at hnone
      cases hnone
    · rw [if_neg hcomp] at hnone ⊢
      cases hs : select_unassigned_variable cw doms a with
      | none => rfl
      | some var =>
        rw [hs] at hnone
        exact btValues_restore cw _ (fun d b => backtrack_restore cw fuel d b) var _ doms a
          (select_unassigned_variable_spec hs).2 hnone

theorem btValues_sound (cw : Crossword)
    (bt : Domains → Assign → Domains × Assign × Option Assign) (var : Variable)
    (hvar : var ∈ cw.vars)
    (hbt : ∀ d b r, consistent cw b = true → (∀ p ∈ b, p.1 ∈ cw.vars) →
      (bt d b).2.2 = some r →
      assignment_complete cw r = true ∧ consistent cw r = true ∧ ∀ p ∈ r, p.1 ∈ cw.vars)
    (hbtr : ∀ d b, (bt d b).2.2 = none → (bt d b).2.1 = b) :
    ∀ (values : List Word) (doms : Domains) (a : Assign) (r : Assign),
      (∀ p ∈ a, p.1 ∈ cw.vars) →
      (btValues cw bt var values doms a).2.2 = some r →
      assignment_complete cw r = true ∧ consistent cw r = true ∧ ∀ p ∈ r, p.1 ∈ cw.vars
  | [], _, _, _, _, h => by cases h
  | value :: rest, doms, a, r, hkeys, hsome => by
    have hkeys1 : ∀ p ∈ insertA a var value, p.1 ∈ cw.vars := by
      intro p hp
      rcases List.mem_append.mp hp with hp | hp
      · exact hkeys p hp
      · rw [List.mem_singleton] at hp
        rw [hp]
        exact hvar
    rw [btValues] at hsome
    by_cases hc : consistent cw (insertA a var value) = true
    · rw [if_pos hc] at hsome
      rcases hbe : bt doms (insertA a var value) with ⟨d2, a2, rr⟩
      rw [hbe] at hsome
      cases rr with
      | some result =>
        have h0 := hbt doms (insertA a var value) result hc hkeys1 (by rw [hbe])
        dsimp only at hsome
        injection hsome with he
        rw [← he]
        exact h0
      | none =>
        dsimp only at hsome
        have ha2 : a2 = insertA a var value := by
          have h0 := hbtr doms (insertA a var value) (by rw [hbe])
          rw [hbe] at h0
          exact h0
        refine btValues_sound cw bt var hvar hbt hbtr rest d2 (eraseA a2 var) r ?_ hsome
        intro p hp
        exact hkeys1 p (ha2 ▸ (eraseA_sublist a2 var).subset hp)
    · rw [if_neg hc] at hsome
      refine btValues_sound cw bt var hvar hbt hbtr rest doms
        (eraseA (insertA a var value) var) r ?_ hsome
      intro p hp
      exact hkeys1 p ((eraseA_sublist _ var).subset hp)

/-- Any assignment returned by `backtrack` from a consistent entry state is
complete and consistent, with all keys among the puzzle's variables. -/
theorem backtrack_sound (cw : Crossword) :
    ∀ (fuel : Nat) (doms : Domains) (a : Assign) (r : Assign),
      consistent cw a = true → (∀ p ∈ a, p.1 ∈ cw.vars) →
      (backtrack cw fuel doms a).2.2 = some r →
      assignment_complete cw r = true ∧ consistent cw r = true ∧ ∀ p ∈ r, p.1 ∈ cw.vars
  | 0, _, _, _, _, _, h => by cases h
  | fuel + 1, doms, a, r, hcons, hkeys, hsome => by
    rw [backtrack] at hsome
    by_cases hcomp : assignment_complete cw a = true
    · rw [if_pos hcomp] at hsome
      injection hsome with he
      rw [← he]
      exact ⟨hcomp, hcons, hkeys⟩
    · rw [if_neg hcomp] at hsome
      cases hs : select_unassigned_variable cw doms a with
      | none =>
        rw [hs] at hsome
        cases hsome
      | some var =>
        rw [hs] at hsome
        exact btValues_sound cw _ var (select_unassigned_variable_spec hs).1
          (fun d b rr hb hk hr => backtrack_sound cw fuel d b rr hb hk hr)
          (fun d b hn => backtrack_restore cw fuel d b hn)
          _ doms a r hkeys hsome

/-! ### Completeness of `backtrack` on solvable stores -/

theorem hasKey_false_iff {a : Assign} {v : Variable} :
    hasKey a v = false ↔ ∀ p ∈ a, p.1 ≠ v := by
  rw [hasKey, List.any_eq_false]
  simp

theorem length_filter_and_ne {α : Type} [DecidableEq α] :
    ∀ (l : List α) (p : α → Bool) (x : α), l.Nodup → x ∈ l → p x = true →
      (l.filter (fun v => p v && !(x == v))).length + 1 = (l.filter p).length
  | [], _, _, _, hx, _ => absurd hx (List.not_mem_nil _)
  | b :: t, p, x, hnd, hx, hpx => by
    rcases List.mem_cons.mp hx with rfl | hxt
    · have hagree : ∀ v ∈ t, (p v && !(x == v)) = p v := by
        intro v hv
        have hne : (x == v) = false := by
          rw [beq_eq_false_iff_ne]
          rintro rfl
          exact (List.nodup_cons.mp hnd).1 hv
        simp [hne]
      rw [List.filter_cons, List.filter_cons]
      rw [if_neg (by simp), if_pos (by simp [hpx]), List.filter_congr hagree]
      simp
    · have hxb : (x == b) = false := by
        rw [beq_eq_false_iff_ne]
        rintro rfl
        exact (List.nodup_cons.mp hnd).1 hxt
      have ih := length_filter_and_ne t p x (List.nodup_cons.mp hnd).2 hxt hpx
      rw [List.filter_cons, List.filter_cons]
      by_cases hpb : p b = true
      · rw [if_pos (by simp [hpb, hxb]), if_pos (by simp [hpb])]
        simp only [List.length_cons]
        omega
      · rw [if_neg (by simp [hpb, hxb]), if_neg (by simp [hpb])]
        exact ih

theorem unassignedCount_insertA {cw : Crossword} (hnd : cw.vars.Nodup) {a : Assign}
    {var : Variable} (hvar : var ∈ cw.vars) (hk : hasKey a var = false) (value : Word) :
    unassignedCount cw (insertA a var value) + 1 = unassignedCount cw a := by
  rw [unassignedCount, unassignedCount]
  have hpred : ∀ v ∈ cw.vars,
      (!hasKey (insertA a var value) v) = ((!hasKey a v) && !(var == v)) := by
    intro v _
    rw [hasKey_insertA]
    cases hhk : hasKey a v <;> cases hvv : (var == v) <;> simp
  rw [List.filter_congr hpred]
  exact length_filter_and_ne cw.vars (fun v => !hasKey a v) var hnd hvar (by simp [hk])

theorem insertA_keys_nodup {a : Assign} {var : Variable} (value : Word)
    (hnd : (a.map Prod.fst).Nodup) (hk : hasKey a var = false) :
    ((insertA a var value).map Prod.fst).Nodup := by
  rw [insertA, List.map_append]
  rw [List.nodup_append]
  refine ⟨hnd, List.nodup_singleton _, ?_⟩
  intro x hx hx'
  rcases List.mem_map.mp hx with ⟨p, hp, rfl⟩
  rw [List.map_singleton, List.mem_singleton] at hx'
  exact hasKey_false_iff.mp hk p hp hx'

theorem btValues_cons (cw : Crossword)
    (bt : Domains → Assign → Domains × Assign × Option Assign) (var : Variable)
    (value : Word) (rest : List Word) (doms : Domains) (a : Assign) :
    btValues cw bt var (value :: rest) doms a =
      if consistent cw (insertA a var value) then
        match bt doms (insertA a var value) with
        | (d2, a2, some result) => (d2, a2, some result)
        | (d2, a2, none) => btValues cw bt var rest d2 (eraseA a2 var)
      else btValues cw bt var rest doms (eraseA (insertA a var value) var) := rfl

theorem btValues_complete (cw : Crossword) (hwf : WF cw) {sol : Variable → Word}
    (hsol : IsSolution cw sol) (fuel : Nat) (doms0 : Domains) (var : Variable)
    (hvar : var ∈ cw.vars)
    (hIH : ∀ b : Assign, (b.map Prod.fst).Nodup →
      (∀ p ∈ b, p.1 ∈ cw.vars ∧ p.2 = sol p.1) →
      unassignedCount cw b + 1 ≤ fuel →
      ∃ r, (backtrack cw fuel doms0 b).2.2 = some r) :
    ∀ (values : List Word) (a : Assign),
      (a.map Prod.fst).Nodup → (∀ p ∈ a, p.1 ∈ cw.vars ∧ p.2 = sol p.1) →
      hasKey a var = false → unassignedCount cw a ≤ fuel → sol var ∈ values →
      ∃ r, (btValues cw (fun d b => backtrack cw fuel d b) var values doms0 a).2.2 = some r
  | [], a, _, _, _, _, hmem => absurd hmem (List.not_mem_nil _)
  | value :: rest, a, hnd, hext, hk, hfuel, hmem => by
    have hcount : unassignedCount cw (insertA a var value) + 1 = unassignedCount cw a :=
      unassignedCount_insertA hwf.nodup_vars hvar hk value
    have hnd1 : ((insertA a var value).map Prod.fst).Nodup := insertA_keys_nodup value hnd hk
    rw [btValues_cons]
    by_cases hveq : value = sol var
    · subst hveq
      have hext1 : ∀ p ∈ insertA a var (sol var), p.1 ∈ cw.vars ∧ p.2 = sol p.1 := by
        intro p hp
        rcases List.mem_append.mp hp with hp | hp
        · exact hext p hp
        · rw [List.mem_singleton] at hp
          rw [hp]
          exact ⟨hvar, rfl⟩
      have hc : consistent cw (insertA a var (sol var)) = true :=
        consistent_of_solution hsol hnd1 hext1
      rw [if_pos hc]
      rcases hIH (insertA a var (sol var)) hnd1 hext1 (by omega) with ⟨r, hr⟩
      rcases hbe : backtrack cw fuel doms0 (insertA a var (sol var)) with ⟨d2, a2, rr⟩
      rw [hbe] at hr
      cases rr with
      | some result => exact ⟨result, rfl⟩
      | none => cases hr
    · have hrest : sol var ∈ rest := by
        rcases List.mem_cons.mp hmem with h | h
        · exact absurd h.symm hveq
        · exact h
      by_cases hc : consistent cw (insertA a var value) = true
      · rw [if_pos hc]
        rcases hbe : backtrack cw fuel doms0 (insertA a var value) with ⟨d2, a2, rr⟩
        cases rr with
        | some result => exact ⟨result, rfl⟩
        | none =>
          have hd2 : d2 = doms0 := by
            have h0 := backtrack_doms cw fuel doms0 (insertA a var value)
            rw [hbe] at h0
            exact h0
          have ha2 : a2 = insertA a var value := by
            have h0 := backtrack_restore cw fuel doms0 (insertA a var value) (by rw [hbe])
            rw [hbe] at h0
            exact h0
          have her : eraseA a2 var = a := by
            rw [ha2]
            exact eraseA_insertA value hk
          dsimp only
          rw [her, hd2]
          exact btValues_complete cw hwf hsol fuel doms0 var hvar hIH rest a
            hnd hext hk hfuel hrest
      · rw [if_neg hc]
        rw [eraseA_insertA value hk]
        exact btValues_complete cw hwf hsol fuel doms0 var hvar hIH rest a
          hnd hext hk hfuel hrest

/-- `backtrack` finds a solution whenever one survives in the domain store
and the fuel covers the number of unassigned variables. -/
theorem backtrack_complete (cw : Crossword) (hwf : WF cw) {sol : Variable → Word}
    (hsol : IsSolution cw sol) :
    ∀ (fuel : Nat) (doms : Domains), (∀ v ∈ cw.vars, sol v ∈ doms v) →
      ∀ (a : Assign), (a.map Prod.fst).Nodup →
        (∀ p ∈ a, p.1 ∈ cw.vars ∧ p.2 = sol p.1) →
        unassignedCount cw a + 1 ≤ fuel →
        ∃ r, (backtrack cw fuel doms a).2.2 = some r
  | 0, _, _, _, _, _, hfuel => absurd hfuel (by omega)
  | fuel + 1, doms, hd, a, hnd, hext, hfuel => by
    rw [backtrack]
    by_cases hcomp : assignment_complete cw a = true
    · rw [if_pos hcomp]
      exact ⟨a, rfl⟩
    · rw [if_neg hcomp]
      rcases select_unassigned_variable_isSome (Bool.not_eq_true _ ▸ hcomp) with ⟨var, hs⟩
      rw [hs]
      have hvar := select_unassigned_variable_spec hs
      have hmem : sol var ∈ order_domain_values cw doms var a :=
        (order_domain_values_perm cw doms var a).mem_iff.mpr (hd var hvar.1)
      have hcount1 : 0 < unassignedCount cw a := by
        rw [unassignedCount]
        have : var ∈ cw.vars.filter (fun v => !hasKey a v) :=
          List.mem_filter.mpr ⟨hvar.1, by simp [hvar.2]⟩
        exact List.length_pos_of_mem this
      exact btValues_complete cw hwf hsol fuel doms var hvar.1
        (fun b hnd' hext' hfuel' => backtrack_complete cw hwf hsol fuel doms hd b hnd'
          hext' hfuel')
        (order_domain_values cw doms var a) a hnd hext hvar.2 (by omega) hmem

/-! ### Remaining helper lemmas -/

theorem enforce_subset (cw : Crossword) (doms : Domains) (v : Variable) :
    ∀ w ∈ enforce_node_consistency cw doms v, w ∈ doms v := by
  intro w hw
  rw [enforce_node_consistency] at hw
  by_cases hv : v ∈ cw.vars
  · rw [if_pos hv] at hw
    exact (List.mem_filter.mp hw).1
  · rwa [if_neg hv] at hw

theorem applyOp_subset (cw : Crossword) (doms : Domains) (op : DomOp) (v : Variable) :
    ∀ w ∈ applyOp cw doms op v, w ∈ doms v := by
  intro w hw
  cases op with
  | enforceOp => exact enforce_subset cw doms v w hw
  | reviseOp x y =>
    by_cases hvx : v = x
    · subst hvx
      exact (revise_sublist cw v y doms).subset hw
    · rwa [applyOp, revise_apply_ne cw x y v doms hvx] at hw
  | ac3Op => exact (ac3Go_sublist cw _ _ doms v).subset hw

theorem sol_in_enforced {cw : Crossword} {sol : Variable → Word} (hsol : IsSolution cw sol) :
    ∀ v ∈ cw.vars, sol v ∈ enforce_node_consistency cw (initDomains cw) v := by
  intro v hv
  rw [enforce_node_consistency, if_pos hv]
  refine List.mem_filter.mpr ⟨(hsol.1 v hv).1, ?_⟩
  simp [(hsol.1 v hv).2]

/-! ### The claims -/

/-- C1: for every puzzle model and vocabulary, if `backtrack` (as invoked by
`solve` on the empty assignment) returns a non-`None` assignment, that
assignment maps every slot to a word, all assigned words are pairwise
distinct, and every pair of assigned slots with a defined overlap `(i, j)`
agrees: the first slot's word at `i` equals the second slot's word at `j`. -/
theorem C1_backtrack_returns_solution (cw : Crossword) (hwf : WF cw) (doms : Domains)
    (fuel : Nat) (r : Assign) (h : (backtrack cw fuel doms []).2.2 = some r) :
    (∀ v ∈ cw.vars, ∃ w, (v, w) ∈ r) ∧
    (∀ p1 ∈ r, ∀ p2 ∈ r, p1.1 ≠ p2.1 → p1.2 ≠ p2.2) ∧
    (∀ p1 ∈ r, ∀ p2 ∈ r, ∀ i j, cw.overlaps p1.1 p2.1 = some (i, j) →
      charAt p1.2 i = charAt p2.2 j) := by
  have hs := backtrack_sound cw fuel doms [] r (consistent_nil cw)
    (by intro p hp; cases hp) h
  refine ⟨?_, consistent_distinct_words hs.2.1, ?_⟩
  · intro v hv
    exact hasKey_iff.mp (List.all_eq_true.mp hs.1 v hv)
  · intro p1 hp1 p2 hp2 i j hov
    by_cases hk : p1.1 = p2.1
    · rw [hk, hwf.self_overlap p2.1 (hs.2.2 p2 hp2)] at hov
      cases hov
    · exact consistent_pairs hs.2.1 p1 hp1 p2 hp2 hk i j hov

/-- C2: for every puzzle model and vocabulary admitting a complete consistent
assignment, `solve` returns a complete consistent assignment rather than
`None`; moreover node consistency and AC-3 never remove any of the solution's
words from the domains. -/
theorem C2_solve_completeness (cw : Crossword) (hwf : WF cw) (sol : Variable → Word)
    (hsol : IsSolution cw sol) :
    (∃ r, solve cw = some r ∧ assignment_complete cw r = true ∧ consistent cw r = true) ∧
    (∀ v ∈ cw.vars, sol v ∈ enforce_node_consistency cw (initDomains cw) v) ∧
    (∀ v ∈ cw.vars,
      sol v ∈ (ac3 cw (enforce_node_consistency cw (initDomains cw))).1 v) := by
  have hd1 := sol_in_enforced hsol
  have hac := ac3_preserves_solution hwf hsol (enforce_node_consistency cw (initDomains cw)) hd1
  have hcount : unassignedCount cw [] + 1 ≤ cw.vars.length + 1 := by
    rw [unassignedCount]
    have := List.length_filter_le (fun v => !hasKey [] v) cw.vars
    omega
  rcases backtrack_complete cw hwf hsol (cw.vars.length + 1)
      (ac3 cw (enforce_node_consistency cw (initDomains cw))).1 hac.1 []
      (by simp) (by intro p hp; cases hp) hcount with ⟨r, hr⟩
  have hsound := backtrack_sound cw (cw.vars.length + 1) _ [] r (consistent_nil cw)
    (by intro p hp; cases hp) hr
  exact ⟨⟨r, hr, hsound.1, hsound.2.1⟩, hd1, hac.1⟩

/-- C3: if `ac3` (default arcs) returns `True` then every ordered pair of
slots with a defined overlap is arc-consistent in the resulting store; if it
returns `False` then some slot's domain is empty in the resulting store. -/
theorem C3_ac3_postcondition (cw : Crossword) (hwf : WF cw) (doms : Domains) :
    ((ac3 cw doms).2 = true →
      ∀ x ∈ cw.vars, ∀ y ∈ cw.vars, ∀ i j, cw.overlaps x y = some (i, j) →
        ∀ wx ∈ (ac3 cw doms).1 x, ∃ wy ∈ (ac3 cw doms).1 y, charAt wx i = charAt wy j) ∧
    ((ac3 cw doms).2 = false → ∃ v ∈ cw.vars, (ac3 cw doms).1 v = []) := by
  constructor
  · intro h x hx y hy i j hov wx hwx
    exact ac3_arc_consistent hwf doms h x hx y hy i j hov wx hwx
  · intro h
    rcases ac3Go_false cw _ _ _ (fun p hp => (mem_defaultArcs.mp hp).1) h with ⟨v, hv, hnil, _⟩
    exact ⟨v, hv, hnil⟩

/-- C4: after `enforce_node_consistency`, a word is in a slot's domain
exactly when it was there before and has the slot's length: every remaining
word has the right length, and every right-length word is kept. -/
theorem C4_node_consistency (cw : Crossword) (doms : Domains) (v : Variable)
    (hv : v ∈ cw.vars) (w : Word) :
    w ∈ enforce_node_consistency cw doms v ↔ w ∈ doms v ∧ w.length = v.length := by
  rw [enforce_node_consistency, if_pos hv, List.mem_filter]
  simp

/-- C5: AC-3 is idempotent: on a store on which `ac3` (default arcs) has
returned `True`, running `ac3` again removes no word and returns `True`. -/
theorem C5_ac3_idempotent (cw : Crossword) (hwf : WF cw) (doms : Domains)
    (h : (ac3 cw doms).2 = true) :
    ac3 cw (ac3 cw doms).1 = ((ac3 cw doms).1, true) := by
  have hok := ac3_arc_consistent hwf doms h
  rw [ac3]
  refine ac3Go_no_removal cw hwf _ _ _ ?_ ?_ hok
  · exact Nat.lt_succ_iff.mpr (Nat.le_add_left _ _)
  · intro p hp
    have h' := mem_defaultArcs.mp hp
    exact ⟨h'.1, h'.2.1⟩

/-- C6: whenever `backtrack` returns `None`, the assignment dict is exactly
its value at entry — every tentative extension made during the call has been
undone, so a failing search exposes no partially filled assignment. -/
theorem C6_backtrack_restores (cw : Crossword) (fuel : Nat) (doms : Domains) (a : Assign)
    (h : (backtrack cw fuel doms a).2.2 = none) : (backtrack cw fuel doms a).2.1 = a :=
  backtrack_restore cw fuel doms a h

/-- C7: domains shrink monotonically: every sequence of
`enforce_node_consistency`, `revise` and `ac3` calls leaves each slot's
domain a subset of what it was, and each domain starts as a copy of the full
vocabulary. -/
theorem C7_domains_monotone (cw : Crossword) (ops : List DomOp) (doms : Domains)
    (v : Variable) :
    (∀ w ∈ applyOps cw ops doms v, w ∈ doms v) ∧ initDomains cw v = cw.words := by
  refine ⟨?_, rfl⟩
  induction ops generalizing doms with
  | nil => exact fun w hw => hw
  | cons op rest ih =>
    intro w hw
    exact applyOp_subset cw doms op v w (ih (applyOp cw doms op) w hw)

/-- C8: `order_domain_values` returns exactly the words of the slot's domain,
in ascending order of the rule-out count over unassigned overlapping
neighbors, and words with equal counts keep their relative order from the
domain enumeration. -/
theorem C8_order_domain_values_spec (cw : Crossword) (doms : Domains) (var : Variable)
    (a : Assign) :
    (order_domain_values cw doms var a).Perm (doms var) ∧
    List.Pairwise
      (fun w1 w2 => ruleOutCount cw doms a var w1 ≤ ruleOutCount cw doms a var w2)
      (order_domain_values cw doms var a) ∧
    ∀ c, (order_domain_values cw doms var a).filter
        (fun w => ruleOutCount cw doms a var w == c) =
      (doms var).filter (fun w => ruleOutCount cw doms a var w == c) :=
  ⟨order_domain_values_perm cw doms var a, order_domain_values_sorted cw doms var a,
    fun c => order_domain_values_stable cw doms var a c⟩

/-- C9: the search engine never mutates the domain store: `backtrack`
(together with the helpers it calls) threads the store through unchanged. -/
theorem C9_search_reads_domains_only (cw : Crossword) (fuel : Nat) (doms : Domains)
    (a : Assign) : (backtrack cw fuel doms a).1 = doms :=
  backtrack_doms cw fuel doms a

/-- C10: `ac3` returns `False` only when a revision leaves a slot's domain
empty — the emptied slot had a non-empty domain at call time; and a slot
with no overlapping neighbors whose domain is already empty does not by
itself cause failure: `ac3` returns `True` with that domain still empty. -/
theorem C10_ac3_failure_requires_removal (cw : Crossword) (doms : Domains) :
    ((ac3 cw doms).2 = false →
      ∃ v ∈ cw.vars, (ac3 cw doms).1 v = [] ∧ doms v ≠ []) ∧
    (∃ cw' : Crossword, ∃ doms' : Domains, ∃ v, v ∈ cw'.vars ∧
      neighbors cw' v = [] ∧ doms' v = [] ∧
      (ac3 cw' doms').2 = true ∧ (ac3 cw' doms').1 v = []) := by
  constructor
  · intro h
    exact ac3Go_false cw _ _ doms (fun p hp => (mem_defaultArcs.mp hp).1) h
  · exact ⟨cwLone, fun _ => [], vLone, by decide, by decide, rfl, by decide, by decide⟩

/-! ### Witnesses -/

theorem C1_witness :
    WF cwCross ∧ (backtrack cwCross 3 dCross []).2.2 = some rCross ∧
      ((∀ v ∈ cwCross.vars, ∃ w, (v, w) ∈ rCross) ∧
      (∀ p1 ∈ rCross, ∀ p2 ∈ rCross, p1.1 ≠ p2.1 → p1.2 ≠ p2.2) ∧
      (∀ p1 ∈ rCross, ∀ p2 ∈ rCross, ∀ i j, cwCross.overlaps p1.1 p2.1 = some (i, j) →
        charAt p1.2 i = charAt p2.2 j)) :=
  ⟨⟨by decide, by decide, by decide, by decide⟩, by decide,
    C1_backtrack_returns_solution cwCross ⟨by decide, by decide, by decide, by decide⟩
      dCross 3 rCross (by decide)⟩

theorem C2_witness :
    WF cwCross ∧ IsSolution cwCross solCross ∧
      ((∃ r, solve cwCross = some r ∧ assignment_complete cwCross r = true ∧
        consistent cwCross r = true) ∧
      (∀ v ∈ cwCross.vars,
        solCross v ∈ enforce_node_consistency cwCross (initDomains cwCross) v) ∧
      (∀ v ∈ cwCross.vars,
        solCross v ∈ (ac3 cwCross (enforce_node_consistency cwCross
          (initDomains cwCross))).1 v)) :=
  ⟨⟨by decide, by decide, by decide, by decide⟩, ⟨by decide, by decide, by decide⟩,
    C2_solve_completeness cwCross ⟨by decide, by decide, by decide, by decide⟩ solCross
      ⟨by decide, by decide, by decide⟩⟩

theorem C3_witness :
    WF cwFail ∧ (ac3 cwFail dFail).2 = false ∧
      (((ac3 cwFail dFail).2 = true →
        ∀ x ∈ cwFail.vars, ∀ y ∈ cwFail.vars, ∀ i j, cwFail.overlaps x y = some (i, j) →
          ∀ wx ∈ (ac3 cwFail dFail).1 x, ∃ wy ∈ (ac3 cwFail dFail).1 y,
            charAt wx i = charAt wy j) ∧
      ((ac3 cwFail dFail).2 = false → ∃ v ∈ cwFail.vars, (ac3 cwFail dFail).1 v = [])) :=
  ⟨⟨by decide, by decide, by decide, by decide⟩, by decide,
    C3_ac3_postcondition cwFail ⟨by decide, by decide, by decide, by decide⟩ dFail⟩

theorem C4_witness :
    vH ∈ cwCross.vars ∧
      (['C','A','T'] ∈ enforce_node_consistency cwCross (initDomains cwCross) vH ↔
        ['C','A','T'] ∈ initDomains cwCross vH ∧ (['C','A','T'] : Word).length = vH.length) :=
  ⟨by decide, C4_node_consistency cwCross (initDomains cwCross) vH (by decide) _⟩

theorem C5_witness :
    (ac3 cwCross dCross).2 = true ∧
      ac3 cwCross (ac3 cwCross dCross).1 = ((ac3 cwCross dCross).1, true) :=
  ⟨by decide, C5_ac3_idempotent cwCross ⟨by decide, by decide, by decide, by decide⟩
    dCross (by decide)⟩

theorem C6_witness :
    (backtrack cwLone 2 (fun _ => []) []).2.2 = none ∧
      (backtrack cwLone 2 (fun _ => []) []).2.1 = [] :=
  ⟨by decide, C6_backtrack_restores cwLone 2 (fun _ => []) [] (by decide)⟩

theorem C7_witness :
    (∀ w ∈ applyOps cwCross [DomOp.enforceOp, DomOp.ac3Op] (initDomains cwCross) vH,
      w ∈ initDomains cwCross vH) ∧ initDomains cwCross vH = cwCross.words :=
  C7_domains_monotone cwCross [DomOp.enforceOp, DomOp.ac3Op] (initDomains cwCross) vH

theorem C10_witness :
    (ac3 cwFail dFail).2 = false ∧
      (((ac3 cwFail dFail).2 = false →
        ∃ v ∈ cwFail.vars, (ac3 cwFail dFail).1 v = [] ∧ dFail v ≠ []) ∧
      (∃ cw' : Crossword, ∃ doms' : Domains, ∃ v, v ∈ cw'.vars ∧
        neighbors cw' v = [] ∧ doms' v = [] ∧
        (ac3 cw' doms').2 = true ∧ (ac3 cw' doms').1 v = [])) :=
  ⟨by decide, C10_ac3_failure_requires_removal cwFail dFail⟩
